import Mathlib

/-!
Verification development for the yt-influencer-stock-tracker automation core.

The definitions below are a shallow embedding of the Python sources:
  * `automation/discover_tickers.py` (discovery engine),
  * `automation/main.py` (`step_5_finalize` merge / reconciliation engine),
  * `automation/tools/historical_prices.py` (historical price retry loop).

Modelling conventions:
  * JSON objects that the merge inspects are embedded as the structure
    `Entry`; for each inspected key an outer `Option` records key presence
    and (where JSON `null` can flow in) an inner `Option` records null.
    Values of the inspected keys are assumed to be in the code's expected
    domain (strings for dates/tickers/sources, numbers for prices);
    all remaining keys of an object are carried opaquely in `rest`.
  * Python `dict`s keyed by strings are embedded as insertion-ordered
    association lists (`List (String × _)`); assignment replaces in place.
  * Python string `<` is code-point lexicographic comparison, embedded as
    `strLt`; `str.upper()` is embedded as `upperStr` (inputs of
    interest are ASCII); prices are embedded as `ℚ`.
  * The iteration order of the Python `set` union `bought | recommended`
    depends on the interpreter's string-hash seed.  It is embedded as an
    explicit enumeration parameter `ord` applied to the list of distinct
    elements; a hypothesis `∀ l, List.Perm (ord l) l` states that `ord`
    is a valid enumeration of the set.
-/

/-- One YouTube video record as consumed by the discovery engine
(`extract_recommendations_from_videos`); the fields the code reads via
`video.get(...)` are modelled as present. -/
structure Video where
  channelId : String
  channelName : String
  publishedAt : String
  title : String
  tickersBought : List String
  tickersRecommended : List String
deriving DecidableEq, Repr

/-- One per-`ticker|channel` aggregate built by
`extract_recommendations_from_videos`. -/
structure Recommendation where
  ticker : String
  channel : String
  channelId : String
  firstMentioned : String
  videos : List String
  isBought : Bool
  isRecommended : Bool
  mentionCount : Nat
deriving DecidableEq, Repr

/-- Insertion-ordered map from recommendation keys to aggregates,
embedding the Python dict `recommendations`. -/
abbrev RecMap := List (String × Recommendation)

/-- First-match lookup in an insertion-ordered association list
(Python `d[k]` / `d.get(k)`). -/
def lookupA : RecMap → String → Option Recommendation
  | [], _ => none
  | (k', r) :: m, k => if k' = k then some r else lookupA m k

/-- Python dict upsert as performed by the extraction loop: if the key is
present, the stored record is updated in place (keeping its position);
otherwise the freshly initialised record is updated and appended. -/
def upsertA : RecMap → String → (Recommendation → Recommendation) → Recommendation → RecMap
  | [], k, f, r0 => [(k, f r0)]
  | (k', r) :: m, k, f, r0 =>
      if k' = k then (k', f r) :: m else (k', r) :: upsertA m k f r0

/-- Python `str.upper()` on the ASCII inputs of interest: upper-case every
character. -/
def upperStr (s : String) : String := String.mk (s.data.map Char.toUpper)

/-- The composite dict key `f"{ticker}|{channel}"`. -/
def toKey (t chan : String) : String := t ++ "|" ++ chan

/-- The distinct elements of `set(tickersBought) | set(tickersRecommended)`. -/
def combinedTickers (v : Video) : List String :=
  (v.tickersBought ++ v.tickersRecommended).dedup

/-- Python code-point comparison `a < b` on character lists. -/
def charLt : List Char → List Char → Bool
  | [], [] => false
  | [], _ :: _ => true
  | _ :: _, [] => false
  | a :: as, b :: bs => if a < b then true else if b < a then false else charLt as bs

/-- Python string comparison `a < b` via the character lists. -/
def strLt (a b : String) : Bool := charLt a.data b.data

/-- The per-video mutation of one aggregate, from the body of the
`for ticker in all_recommended` loop (`t` is the already upper-cased
ticker; the membership tests against the raw bought/recommended sets use
the upper-cased string, as in the source). -/
def updRec (v : Video) (t : String) (r : Recommendation) : Recommendation :=
  { r with
    videos := if v.title ∈ r.videos then r.videos else r.videos ++ [v.title]
    isBought := r.isBought || decide (t ∈ v.tickersBought)
    isRecommended := r.isRecommended || decide (t ∈ v.tickersRecommended)
    firstMentioned :=
      if strLt v.publishedAt r.firstMentioned then v.publishedAt else r.firstMentioned
    mentionCount := r.mentionCount + 1 }

/-- The freshly initialised aggregate inserted when a key is first seen. -/
def initRec (v : Video) (t : String) : Recommendation :=
  { ticker := t
    channel := v.channelName
    channelId := v.channelId
    firstMentioned := v.publishedAt
    videos := []
    isBought := false
    isRecommended := false
    mentionCount := 0 }

/-- Processing of a single raw ticker string `s` from the combined set. -/
def processTicker (v : Video) (m : RecMap) (s : String) : RecMap :=
  upsertA m (toKey (upperStr s) v.channelName) (updRec v (upperStr s)) (initRec v (upperStr s))

/-- Embedding of `extract_recommendations_from_videos`, parametrised by the
set-enumeration order `ord` (see module docstring). -/
def extract_recommendations_from_videos
    (ord : List String → List String) (videos : List Video) : RecMap :=
  videos.foldl (fun m v => ((ord (combinedTickers v)).foldl (processTicker v) m)) []

/-- One registry / crew-output JSON object, restricted to the keys that
`step_5_finalize` and the discovery code inspect.  The outer `Option` is
key presence (`'f' in entry`); the inner `Option` (where present) is JSON
null.  All other keys of the object travel opaquely in `rest`. -/
structure Entry where
  ticker : Option String := none
  source : Option String := none
  price : Option (Option ℚ) := none
  initialPrice : Option (Option ℚ) := none
  recommendedDate : Option (Option String) := none
  lastUpdated : Option (Option String) := none
  rest : List (String × String) := []
deriving DecidableEq, Repr

/-- Embedding of `get_stock_key` from `automation/main.py`. -/
def get_stock_key (s : Entry) : String :=
  upperStr (s.ticker.getD "") ++ "|" ++ s.source.getD "Unknown"

/-- Embedding of `get_tracked_tickers` from `automation/discover_tickers.py`:
the set of tracked `ticker|source` keys (set membership is embedded as
list membership, which is hash-order independent). -/
def get_tracked_tickers (stocks : List Entry) : List String :=
  stocks.filterMap fun s =>
    let t := upperStr (s.ticker.getD "")
    if t = "" then none else some (t ++ "|" ++ s.source.getD "Unknown")

/-- The pre-sort `new_tickers` list built by the partition loop of
`discover_new_tickers` (insertion order of the recommendations dict). -/
def newTickersPre (ord : List String → List String)
    (videos : List Video) (stocks : List Entry) : List Recommendation :=
  (extract_recommendations_from_videos ord videos).filterMap fun kr =>
    if kr.1 ∈ get_tracked_tickers stocks then none
    else if kr.2.isBought || kr.2.isRecommended then some kr.2 else none

/-- The `existing_updates` list built by the partition loop of
`discover_new_tickers`. -/
def existingUpdatesOf (ord : List String → List String)
    (videos : List Video) (stocks : List Entry) : List Recommendation :=
  (extract_recommendations_from_videos ord videos).filterMap fun kr =>
    if kr.1 ∈ get_tracked_tickers stocks then some kr.2 else none

/-- Python's stable `list.sort(key=mentionCount, reverse=True)`: a stable
insertion sort, descending in `mentionCount`; elements with equal counts
keep their input order. -/
def sortByMentions (l : List Recommendation) : List Recommendation :=
  l.insertionSort fun a b => b.mentionCount ≤ a.mentionCount

/-- Embedding of `discover_new_tickers` (with videos and stocks supplied,
as in the pipeline): returns `(new_tickers, existing_updates)`. -/
def discover_new_tickers (ord : List String → List String)
    (videos : List Video) (stocks : List Entry) :
    List Recommendation × List Recommendation :=
  (sortByMentions (newTickersPre ord videos stocks), existingUpdatesOf ord videos stocks)

/-- The fixed `dcf` placeholder object of `create_new_stock_entry`. -/
structure DcfRange where
  conservative : String
  base : String
  aggressive : String
deriving DecidableEq, Repr

/-- The `sourceDetails` object of `create_new_stock_entry`. -/
structure SourceDetails where
  channelId : String
  firstMentioned : String
  videos : List String
  isBought : Bool
  addedOn : String
deriving DecidableEq, Repr

/-- The full placeholder stock dict returned by `create_new_stock_entry`. -/
structure NewStockEntry where
  category : String
  ticker : String
  name : String
  price : ℚ
  initialPrice : Option ℚ
  recommendedDate : String
  dcf : DcfRange
  fcfQuality : Nat
  roicStrength : Nat
  revenueDurability : Nat
  balanceSheetStrength : Nat
  insiderActivity : Nat
  valueRank : Nat
  expectedReturn : Nat
  lastUpdated : String
  source : String
  sourceDetails : SourceDetails
deriving DecidableEq, Repr

/-- Embedding of `create_new_stock_entry`, parametrised by the historical
price service `hist` and the current date `today`. -/
def create_new_stock_entry (hist : String → String → Option ℚ) (today : String)
    (fetchHistorical : Bool) (r : Recommendation) : NewStockEntry :=
  let ticker := r.ticker
  let source := r.channel
  let recommended_date := r.firstMentioned
  let initial_price :=
    if fetchHistorical ∧ recommended_date ≠ "" then hist ticker recommended_date else none
  { category := "Growth"
    ticker := ticker
    name := ticker ++ " (pending analysis)"
    price := 0
    initialPrice := initial_price
    recommendedDate := recommended_date
    dcf := ⟨"0-0", "0-0", "0-0"⟩
    fcfQuality := 3
    roicStrength := 3
    revenueDurability := 3
    balanceSheetStrength := 3
    insiderActivity := 3
    valueRank := 3
    expectedReturn := 3
    lastUpdated := today
    source := source
    sourceDetails :=
      { channelId := r.channelId
        firstMentioned := recommended_date
        videos := r.videos.take 3
        isBought := r.isBought
        addedOn := today } }

/-- Insertion-ordered map from identity keys to entries (the dict
`existing_by_key` of `step_5_finalize`). -/
abbrev EntryMap := List (String × Entry)

/-- First-match lookup (`existing_by_key.get(stock_key, {})`). -/
def lookupE : EntryMap → String → Option Entry
  | [], _ => none
  | (k', e) :: m, k => if k' = k then some e else lookupE m k

/-- Python dict assignment `existing_by_key[stock_key] = entry`:
replace in place, else append. -/
def assignE : EntryMap → String → Entry → EntryMap
  | [], k, e => [(k, e)]
  | (k', e') :: m, k, e => if k' = k then (k', e) :: m else (k', e') :: assignE m k e

/-- The dict comprehension `{get_stock_key(s): s for s in existing_data}`. -/
def buildIndex (l : List Entry) : EntryMap :=
  l.foldl (fun m s => assignE m (get_stock_key s) s) []

/-- Python truthiness of a possibly-absent, possibly-null number field
(absent, null and `0` are falsy). -/
def truthyQ : Option (Option ℚ) → Bool
  | some (some q) => decide (q ≠ 0)
  | _ => false

/-- Truthy string value of a possibly-absent, possibly-null string field
(absent, null and `""` give `none`). -/
def truthyS : Option (Option String) → Option String
  | some (some s) => if s = "" then none else some s
  | _ => none

/-- The value `entry.get(f)` of a number field: `none` models Python
`None` (key absent or value null). -/
def flatQ : Option (Option ℚ) → Option ℚ
  | some (some q) => some q
  | _ => none

/-- The body of the merge loop of `step_5_finalize` for one crew entry
(a dict); `hist` is `get_historical_price`, `today` the run date. -/
def mergeEntry (hist : String → String → Option ℚ) (today : String)
    (m : EntryMap) (entry : Entry) : EntryMap :=
  let ticker := upperStr (entry.ticker.getD "")
  let source := entry.source.getD "Unknown"
  let stock_key := ticker ++ "|" ++ source
  if ticker = "" then m
  else
    let existing_stock := (lookupE m stock_key).getD {}
    let e1 : Entry :=
      { entry with
        initialPrice :=
          if existing_stock.initialPrice.isSome && entry.initialPrice.isNone then
            existing_stock.initialPrice
          else entry.initialPrice
        source :=
          if existing_stock.source.isSome && entry.source.isNone then
            existing_stock.source
          else entry.source
        recommendedDate :=
          if existing_stock.recommendedDate.isSome && entry.recommendedDate.isNone then
            existing_stock.recommendedDate
          else entry.recommendedDate }
    let e2 : Entry :=
      if truthyQ e1.initialPrice then e1
      else
        match (truthyS e1.recommendedDate).orElse
            (fun _ => truthyS existing_stock.recommendedDate) with
        | some rec_date =>
            if strLt rec_date today then
              match hist ticker rec_date with
              | some hp =>
                  if hp ≠ 0 then { e1 with initialPrice := some (some hp) }
                  else { e1 with initialPrice := some (flatQ e1.price) }
              | none => { e1 with initialPrice := some (flatQ e1.price) }
            else if truthyQ e1.price then { e1 with initialPrice := some (flatQ e1.price) }
            else e1
        | none =>
            if truthyQ e1.price then { e1 with initialPrice := some (flatQ e1.price) }
            else e1
    let e3 : Entry := { e2 with lastUpdated := some (some today) }
    assignE m stock_key e3

/-- One iteration of the crew-output loop: non-dict list items are
skipped (`isinstance(entry, dict)`). -/
def mergeItem (hist : String → String → Option ℚ) (today : String)
    (m : EntryMap) : Option Entry → EntryMap
  | none => m
  | some e => mergeEntry hist today m e

/-- Python tuple `(x.get('ticker',''), x.get('source',''))` ascending order
used by the final `merged_data.sort`. -/
def entryLE (a b : Entry) : Bool :=
  strLt (a.ticker.getD "") (b.ticker.getD "") ||
    (a.ticker.getD "" = b.ticker.getD "" &&
      (strLt (a.source.getD "") (b.source.getD "") || a.source.getD "" = b.source.getD ""))

/-- The final stable ascending sort of the merged registry list. -/
def sortEntries (l : List Entry) : List Entry :=
  l.insertionSort fun a b => entryLE a b

/-- The pure reconciliation of `step_5_finalize`: merge the parsed crew
output (list items; `none` for non-dict items) into the prior registry
and sort.  File handling is modelled separately in `step_5_finalize`. -/
def step5_merge (hist : String → String → Option ℚ) (today : String)
    (crew : List (Option Entry)) (existing : List Entry) : List Entry :=
  sortEntries ((crew.foldl (mergeItem hist today) (buildIndex existing)).map Prod.snd)

/-- Result of parsing the crew output text: a JSON list (whose non-dict
items are `none`) or some other JSON value. -/
inductive CrewParsed
  | arr (items : List (Option Entry))
  | notList
deriving DecidableEq

/-- The two files `step_5_finalize` touches: `output/stocks.json` (crew
output, later overwritten with the merged list) and `data/stocks.json`
(the published registry); `none` means the file does not exist. -/
structure FileState where
  outputStocks : Option String
  websiteStocks : Option String
deriving DecidableEq

/-- Python `str.strip()` whitespace for the ASCII texts of interest. -/
def isPyWS (c : Char) : Bool :=
  c = ' ' || c = '\t' || c = '\n' || c = '\r' || c = '\x0b' || c = '\x0c'

/-- Remove leading and trailing whitespace from a character list. -/
def trimChars (l : List Char) : List Char :=
  ((l.dropWhile isPyWS).reverse.dropWhile isPyWS).reverse

/-- The fence marker: three backquote characters (code point 96). -/
def fenceMarker : List Char := [Char.ofNat 96, Char.ofNat 96, Char.ofNat 96]

/-- Whether the text starts with the fence marker. -/
def hasFenceStart (l : List Char) : Bool :=
  l.take 3 = fenceMarker

/-- Whether the text ends with the fence marker. -/
def hasFenceEnd (l : List Char) : Bool :=
  l.reverse.take 3 = fenceMarker.reverse

/-- Characters after the first newline. -/
def afterFirstNL : List Char → List Char
  | [] => []
  | c :: cs => if c = '\n' then cs else afterFirstNL cs

/-- Characters before the last newline (`rsplit("\n", 1)[0]`): the whole
list when it holds no newline. -/
def beforeLastNL (l : List Char) : List Char :=
  if '\n' ∈ l then (afterFirstNL l.reverse).reverse else l

/-- The fence stripping of `step_5_finalize`: trim, drop the first line
when the text starts with a fence marker, drop the last line when it ends
with one. -/
def stripFences (raw0 : String) : String :=
  let r1 := String.mk (trimChars raw0.data)
  let r2 :=
    if hasFenceStart r1.data then
      if '\n' ∈ r1.data then String.mk (afterFirstNL r1.data) else ""
    else r1
  if hasFenceEnd r2.data then String.mk (beforeLastNL r2.data) else r2

/-- Embedding of `step_5_finalize` as a transition on the two files.
`parseCrew` and `parseSite` model `json.loads` on the respective file
contents (`none` = parse error / exception), `serialize` models
`json.dumps(..., indent=2)`.  The returned `Bool` is the step's return
value; every failure path is caught and reported as `false`. -/
def step_5_finalize (parseCrew : String → Option CrewParsed)
    (parseSite : String → Option (List Entry)) (serialize : List Entry → String)
    (hist : String → String → Option ℚ) (today : String)
    (fs : FileState) : Bool × FileState :=
  match fs.outputStocks with
  | none => (false, fs)
  | some raw0 =>
    match parseCrew (stripFences raw0) with
    | none => (false, fs)
    | some parsed =>
      let existing_data : List Entry :=
        match fs.websiteStocks with
        | none => []
        | some w => (parseSite w).getD []
      let items : List (Option Entry) :=
        match parsed with
        | .arr l => l
        | .notList => []
      let merged := step5_merge hist today items existing_data
      let txt := serialize merged ++ "\n"
      (true, { outputStocks := some txt, websiteStocks := some txt })

/-- One parsed Yahoo chart response, as far as `get_historical_price`
inspects it: whether `chart.result` is nonempty, whether
`indicators.quote` is nonempty, the `close` list (null entries are
`none`) and the `timestamp` list. -/
structure ChartResp where
  hasResult : Bool
  hasQuote : Bool
  closes : List (Option ℚ)
  timestamps : List Int
deriving DecidableEq

/-- Outcome of one attempt's date parse plus network fetch: an exception
anywhere (bad date string, network error, malformed body) or a response
together with the target timestamp of the requested date. -/
inductive FetchOutcome
  | raised
  | ok (r : ChartResp) (target : Int)
deriving DecidableEq

/-- The best-index scan of `get_historical_price`: first valid close wins
ties, strictly smaller distance to the target replaces the running best.
Returns the best `(index, distance)`. -/
def scanBest (target : Int) (closes : List (Option ℚ)) :
    Nat → List Int → Option (Nat × Nat) → Option (Nat × Nat)
  | _, [], acc => acc
  | i, ts :: rest, acc =>
    let acc' :=
      if (closes.getD i none).isSome then
        match acc with
        | none => some (i, (ts - target).natAbs)
        | some (bi, bd) =>
            if (ts - target).natAbs < bd then some (i, (ts - target).natAbs)
            else some (bi, bd)
      else acc
    scanBest target closes (i + 1) rest acc'

/-- The body of one attempt after a successful fetch: `.error` models an
exception escaping the body (the index error raised when `close` is
shorter than `timestamp`), `.ok` a `return` from the function. -/
def extractPrice (round2 : ℚ → ℚ) (r : ChartResp) (target : Int) :
    Except Unit (Option ℚ) :=
  if !r.hasResult then .ok none
  else if !r.hasQuote then .ok none
  else if r.timestamps.isEmpty || r.closes.isEmpty then .ok none
  else if r.closes.length < r.timestamps.length then .error ()
  else
    match scanBest target r.closes 0 r.timestamps none with
    | some (bi, _) =>
      match r.closes.getD bi none with
      | some c => .ok (some (round2 c))
      | none => .ok none
    | none => .ok none

/-- The retry loop of `get_historical_price`: `remaining` attempts are
left, the next one has index `attempt`.  A raising attempt retries unless
it is the last one; a non-raising attempt's `return` value is final. -/
def runAttempts (outcomes : Nat → FetchOutcome) (round2 : ℚ → ℚ) :
    Nat → Nat → Option ℚ
  | 0, _ => none
  | remaining + 1, attempt =>
    match outcomes attempt with
    | .raised =>
        if remaining = 0 then none else runAttempts outcomes round2 remaining (attempt + 1)
    | .ok r target =>
      match extractPrice round2 r target with
      | .error _ =>
          if remaining = 0 then none else runAttempts outcomes round2 remaining (attempt + 1)
      | .ok res => res

/-- Embedding of `get_historical_price`, parametrised by the per-attempt
fetch outcomes, the float rounding `round(x, 2)` and `max_retries`. -/
def get_historical_price (outcomes : Nat → FetchOutcome) (round2 : ℚ → ℚ)
    (max_retries : Nat) : Option ℚ :=
  runAttempts outcomes round2 max_retries 0

/-- The historical price service that fails on every request (one
possible behaviour of the external collaborator). -/
def histNone : String → String → Option ℚ := fun _ _ => none

/-- Fixture: the prior-registry entry of the spec's reconciliation
example scenario. -/
def nvdaPrior : Entry :=
  { ticker := some "NVDA"
    source := some "ChanA"
    initialPrice := some (some 120)
    recommendedDate := some (some "2025-01-10") }

/-- Fixture: the fresh-analysis record of the example scenario with the
`initialPrice` key present and null, exactly as written in the spec. -/
def nvdaFreshNull : Entry :=
  { ticker := some "NVDA"
    source := some "ChanA"
    price := some (some 180)
    initialPrice := some none }

/-- Fixture: the fresh-analysis record of the example scenario with the
`initialPrice` key absent. -/
def nvdaFreshNoKey : Entry :=
  { ticker := some "NVDA"
    source := some "ChanA"
    price := some (some 180) }

/-- Fixture: a prior entry whose numeric `initialPrice` is 120. -/
def c2PriorEntry : Entry :=
  { ticker := some "NVDA"
    source := some "ChanA"
    initialPrice := some (some 120) }

/-- Fixture: a fresh record carrying its own `initialPrice` key. -/
def c2FreshEntry : Entry :=
  { ticker := some "NVDA"
    source := some "ChanA"
    initialPrice := some (some 50)
    price := some (some 180) }

/-- Fixture: a prior entry untouched by an empty analysis run, with an
old `lastUpdated`. -/
def c4PriorEntry : Entry :=
  { ticker := some "NVDA"
    source := some "ChanA"
    initialPrice := some (some 120)
    lastUpdated := some (some "2024-01-01") }

/-- Fixture: a fresh record with a lower-case ticker. -/
def c9LowerEntry : Entry :=
  { ticker := some "nvda"
    source := some "ChanA"
    initialPrice := some (some 5) }

/-- Fixture: a later fresh record whose ticker differs only in case. -/
def c9MixedEntry : Entry :=
  { ticker := some "NvDa"
    source := some "ChanA"
    initialPrice := some (some 7) }

/-- Last entry of the list whose identity key is `k` (the value the dict
comprehension of `step_5_finalize` keeps for key `k`). -/
def lastKeyed (k : String) : List Entry → Option Entry
  | [] => none
  | e :: t =>
    match lastKeyed k t with
    | some x => some x
    | none => if get_stock_key e = k then some e else none

/-- Effect of processing one raw ticker string `s` of a video on the
aggregate stored at a FIXED key `k` (per-key view of `processTicker`). -/
def stepTk (v : Video) (k : String) (o : Option Recommendation) (s : String) :
    Option Recommendation :=
  if toKey (upperStr s) v.channelName = k then
    some (updRec v (upperStr s) (o.getD (initRec v (upperStr s))))
  else o

/-- Effect of one whole video on the aggregate at key `k`, processing its
combined ticker set in the canonical order. -/
def stepVideo (v : Video) (k : String) (o : Option Recommendation) : Option Recommendation :=
  (combinedTickers v).foldl (stepTk v k) o

/-- Order-independent per-key semantics of the extraction fold: the
aggregate stored at key `k` after all videos are processed. -/
def lookupSpec (videos : List Video) (k : String) : Option Recommendation :=
  videos.foldl (fun o v => stepVideo v k o) none

/-- Keys of a recommendation map in insertion order. -/
def keysOf (m : RecMap) : List String := m.map Prod.fst

/-- The `mentionCount` stored at a key (0 when the key is absent). -/
def mcO : Option Recommendation → Nat
  | none => 0
  | some r => r.mentionCount

/-- The count the spec describes: the number of videos from channel
`chan` in which ticker `t` appears in `tickersBought` or
`tickersRecommended` (a video counts once even when `t` is in both). -/
def videosMentioning (videos : List Video) (t chan : String) : Nat :=
  (videos.filter fun v =>
    v.channelName == chan && (decide (t ∈ v.tickersBought) || decide (t ∈ v.tickersRecommended))).length

/-- Cleanliness of a raw ticker string: already upper-case and free of
the key separator. -/
def cleanTicker (s : String) : Prop := upperStr s = s ∧ '|' ∉ s.data

instance (s : String) : Decidable (cleanTicker s) := by
  unfold cleanTicker
  infer_instance

/-- Fixture: one video listing the same ticker twice in different case. -/
def c6Video : Video :=
  { channelId := "cid"
    channelName := "Ch"
    publishedAt := "2025-01-01"
    title := "T1"
    tickersBought := ["NVDA", "nvda"]
    tickersRecommended := [] }

/-- Fixture: a clean single-ticker video for witnesses. -/
def cleanVideo : Video :=
  { channelId := "cid"
    channelName := "Ch"
    publishedAt := "2025-01-01"
    title := "T1"
    tickersBought := ["NVDA"]
    tickersRecommended := [] }

/-- Fixture: the aggregate produced from `cleanVideo`. -/
def cleanVideoRec : Recommendation :=
  { ticker := "NVDA"
    channel := "Ch"
    channelId := "cid"
    firstMentioned := "2025-01-01"
    videos := ["T1"]
    isBought := true
    isRecommended := false
    mentionCount := 1 }

/-- Fixture: four videos of one channel recommending one ticker under
four distinct titles. -/
def c5Videos : List Video :=
  [{ channelId := "cid", channelName := "Ch", publishedAt := "2025-01-01", title := "T1",
     tickersBought := ["NVDA"], tickersRecommended := [] },
   { channelId := "cid", channelName := "Ch", publishedAt := "2025-01-02", title := "T2",
     tickersBought := ["NVDA"], tickersRecommended := [] },
   { channelId := "cid", channelName := "Ch", publishedAt := "2025-01-03", title := "T3",
     tickersBought := ["NVDA"], tickersRecommended := [] },
   { channelId := "cid", channelName := "Ch", publishedAt := "2025-01-04", title := "T4",
     tickersBought := ["NVDA"], tickersRecommended := [] }]

/-- Fixture: the aggregate produced from `c5Videos`. -/
def c5Rec : Recommendation :=
  { ticker := "NVDA"
    channel := "Ch"
    channelId := "cid"
    firstMentioned := "2025-01-01"
    videos := ["T1", "T2", "T3", "T4"]
    isBought := true
    isRecommended := false
    mentionCount := 4 }

/-- Fixture: one video buying two distinct tickers, whose set-iteration
order therefore depends on the hash seed. -/
def c3Video : Video :=
  { channelId := "cid"
    channelName := "Ch"
    publishedAt := "2025-03-01"
    title := "T"
    tickersBought := ["AA", "BB"]
    tickersRecommended := [] }

/-! ### Association-list lemmas for the reconciliation index -/

theorem lookupE_assignE (m : EntryMap) (k k2 : String) (e : Entry) :
    lookupE (assignE m k e) k2 = if k = k2 then some e else lookupE m k2 := by
  induction m with
  | nil => by_cases h : k = k2 <;> simp [assignE, lookupE, h]
  | cons p m ih =>
    obtain ⟨k', e'⟩ := p
    by_cases h : k' = k
    · subst h
      by_cases h2 : k' = k2 <;> simp [assignE, lookupE, h2]
    · by_cases h2 : k' = k2
      · subst h2
        have hkk : ¬k = k' := fun hh => h hh.symm
        simp [assignE, lookupE, h, hkk]
      · simp [assignE, lookupE, h, h2, ih]

theorem lookupE_buildFold (l : List Entry) (m : EntryMap) (k : String) :
    lookupE (l.foldl (fun m s => assignE m (get_stock_key s) s) m) k
      = ((lastKeyed k l).rec (lookupE m k) fun e => some e : Option Entry) := by
  induction l generalizing m with
  | nil => simp [lastKeyed]
  | cons e t ih =>
    simp only [List.foldl_cons, lastKeyed]
    rw [ih]
    cases h : lastKeyed k t with
    | some x => simp
    | none =>
      by_cases hk : get_stock_key e = k
      · simp [hk, lookupE_assignE]
      · simp [hk, lookupE_assignE]

theorem lookupE_buildIndex (l : List Entry) (k : String) :
    lookupE (buildIndex l) k = lastKeyed k l := by
  rw [buildIndex, lookupE_buildFold]
  cases lastKeyed k l <;> simp [lookupE]

theorem lastKeyed_mem (l : List Entry) (k : String) (x : Entry)
    (h : lastKeyed k l = some x) : x ∈ l ∧ get_stock_key x = k := by
  induction l with
  | nil => cases h
  | cons a b ih =>
    rw [lastKeyed] at h
    cases hb : lastKeyed k b with
    | some y =>
      rw [hb] at h
      cases h
      obtain ⟨hy, hyk⟩ := ih hb
      exact ⟨List.mem_cons_of_mem _ hy, hyk⟩
    | none =>
      rw [hb] at h
      by_cases hak : get_stock_key a = k
      · rw [if_pos hak] at h
        cases h
        exact ⟨List.mem_cons_self _ _, hak⟩
      · rw [if_neg hak] at h
        cases h

theorem lastKeyed_of_unique (l : List Entry) (E : Entry) (k : String)
    (hE : E ∈ l) (hk : get_stock_key E = k)
    (huniq : ∀ e' ∈ l, get_stock_key e' = k → e' = E) :
    lastKeyed k l = some E := by
  induction l with
  | nil => cases hE
  | cons e t ih =>
    by_cases hmem : E ∈ t
    · rw [lastKeyed, ih hmem fun e' he' h => huniq e' (List.mem_cons_of_mem _ he') h]
    · have heE : e = E := by
        rcases List.mem_cons.1 hE with h | h
        · exact h.symm
        · exact absurd h hmem
      subst heE
      have hnone : lastKeyed k t = none := by
        cases hlast : lastKeyed k t with
        | none => rfl
        | some x =>
          obtain ⟨hx, hxk⟩ := lastKeyed_mem t k x hlast
          exact absurd (huniq x (List.mem_cons_of_mem _ hx) hxk ▸ hx) hmem
      rw [lastKeyed, hnone, if_pos hk]

theorem lookupE_mergeEntry_ne (hist : String → String → Option ℚ) (today : String)
    (m : EntryMap) (entry : Entry) (k : String)
    (hk : upperStr (entry.ticker.getD "") ≠ "" → get_stock_key entry ≠ k) :
    lookupE (mergeEntry hist today m entry) k = lookupE m k := by
  rw [mergeEntry]
  by_cases ht : upperStr (entry.ticker.getD "") = ""
  · rw [if_pos ht]
  · rw [if_neg ht, lookupE_assignE,
      if_neg (show ¬(upperStr (entry.ticker.getD "") ++ "|" ++
        entry.source.getD "Unknown" = k) from hk ht)]

theorem lookupE_mergeFold_ne (hist : String → String → Option ℚ) (today : String)
    (crew : List (Option Entry)) (m : EntryMap) (k : String)
    (h : ∀ i ∈ crew, ∀ e, i = some e →
      upperStr (e.ticker.getD "") ≠ "" → get_stock_key e ≠ k) :
    lookupE (crew.foldl (mergeItem hist today) m) k = lookupE m k := by
  induction crew generalizing m with
  | nil => rfl
  | cons i t ih =>
    rw [List.foldl_cons]
    rw [ih _ fun i' hi' e he hne => h i' (List.mem_cons_of_mem _ hi') e he hne]
    cases i with
    | none => rfl
    | some e =>
      exact lookupE_mergeEntry_ne hist today m e k
        (h (some e) (List.mem_cons_self _ _) e rfl)

theorem mem_values_of_lookupE (m : EntryMap) (k : String) (e : Entry)
    (h : lookupE m k = some e) : e ∈ m.map Prod.snd := by
  induction m with
  | nil => cases h
  | cons p m ih =>
    obtain ⟨k', e'⟩ := p
    rw [lookupE] at h
    by_cases hk : k' = k
    · rw [if_pos hk] at h
      cases h
      exact List.mem_cons_self _ _
    · rw [if_neg hk] at h
      exact List.mem_cons_of_mem _ (ih h)

theorem mem_sortEntries_of_mem (l : List Entry) (e : Entry) (h : e ∈ l) :
    e ∈ sortEntries l :=
  ((List.perm_insertionSort _ l).mem_iff).2 h

/-- C8: when the crew-output text still fails JSON parsing after fence
stripping, `step_5_finalize` writes neither file — in particular the
published registry `data/stocks.json` is byte-for-byte unchanged — and
returns failure instead of raising. -/
theorem c8_parse_failure_leaves_registry_untouched
    (parseCrew : String → Option CrewParsed) (parseSite : String → Option (List Entry))
    (serialize : List Entry → String) (hist : String → String → Option ℚ)
    (today : String) (fs : FileState) (raw0 : String)
    (h1 : fs.outputStocks = some raw0)
    (h2 : parseCrew (stripFences raw0) = none) :
    step_5_finalize parseCrew parseSite serialize hist today fs = (false, fs) := by
  rw [step_5_finalize, h1]
  simp only [h2]

/-- Witness for C8 at a concrete file state and failing parser. -/
theorem c8_parse_failure_witness :
    step_5_finalize (fun _ => none) (fun _ => some []) (fun _ => "out") histNone
        "2026-01-01" ⟨some "no json here", some "prior feed"⟩
      = (false, ⟨some "no json here", some "prior feed"⟩) :=
  c8_parse_failure_leaves_registry_untouched (fun _ => none) (fun _ => some [])
    (fun _ => "out") histNone "2026-01-01" ⟨some "no json here", some "prior feed"⟩
    "no json here" rfl rfl

/-- C4 counterexample: an entry untouched by the current run survives
with its OLD `lastUpdated`; the claim's "rewritten to the current run's
date" fails (here the run date is 2026-10-12 but the surviving entry
still carries 2024-01-01). -/
theorem c4_counterexample_lastUpdated_not_rewritten :
    step5_merge histNone "2026-10-12" [] [c4PriorEntry] = [c4PriorEntry] ∧
      c4PriorEntry.lastUpdated ≠ some (some "2026-10-12") := by
  constructor <;> decide

/-- C4 amended: every identity key present in the prior registry (with a
unique entry for it) and not targeted by any fresh record survives into
the reconciled output completely verbatim — all fields unchanged,
including `lastUpdated`. -/
theorem c4_amended_untouched_prior_entry_survives_verbatim
    (hist : String → String → Option ℚ) (today : String)
    (crew : List (Option Entry)) (existing : List Entry) (E : Entry) (k : String)
    (hE : E ∈ existing) (hk : get_stock_key E = k)
    (huniq : ∀ e' ∈ existing, get_stock_key e' = k → e' = E)
    (hcrew : ∀ i ∈ crew, ∀ e, i = some e →
      upperStr (e.ticker.getD "") ≠ "" → get_stock_key e ≠ k) :
    E ∈ step5_merge hist today crew existing := by
  have h0 : lookupE (buildIndex existing) k = some E := by
    rw [lookupE_buildIndex]
    exact lastKeyed_of_unique existing E k hE hk huniq
  have h1 : lookupE (crew.foldl (mergeItem hist today) (buildIndex existing)) k = some E := by
    rw [lookupE_mergeFold_ne hist today crew _ k hcrew, h0]
  exact mem_sortEntries_of_mem _ _ (mem_values_of_lookupE _ _ _ h1)

/-- Witness for the amended C4 at a concrete registry with an empty
analysis run. -/
theorem c4_amended_witness :
    c4PriorEntry ∈ step5_merge histNone "2026-10-12" [] [c4PriorEntry] :=
  c4_amended_untouched_prior_entry_survives_verbatim histNone "2026-10-12" []
    [c4PriorEntry] c4PriorEntry "NVDA|ChanA" (by decide) (by decide) (by decide)
    (fun i hi => absurd hi (List.not_mem_nil i))

/-- C1 counterexample: on the spec's own example (fresh record carrying
`initialPrice: null`, i.e. the key present and null), the merge does NOT
preserve the prior `initialPrice` 120; with the historical service
failing, the output entry's `initialPrice` is the fresh `price` 180. -/
theorem c1_counterexample_example_scenario :
    (step5_merge histNone "2026-02-01" [some nvdaFreshNull] [nvdaPrior]).map
        (fun e => e.initialPrice) = [some (some 180)] ∧
      (step5_merge histNone "2026-02-01" [some nvdaFreshNull] [nvdaPrior]).map
          (fun e => e.initialPrice) ≠ [some (some 120)] := by
  constructor <;> decide

/-- C1 amended: the example scenario behaves as claimed when the fresh
record OMITS the `initialPrice` key: the reconciled NVDA|ChanA entry has
`initialPrice` 120 (preserved from the prior entry), `price` 180, and
`lastUpdated` equal to the run date - for every behaviour of the
historical price service. -/
theorem c1_amended_example_scenario_key_absent
    (hist : String → String → Option ℚ) (today : String) :
    (step5_merge hist today [some nvdaFreshNoKey] [nvdaPrior]).map
        (fun e => (e.initialPrice, e.price, e.lastUpdated))
      = [(some (some 120), some (some 180), some (some today))] := rfl

/-- C2 counterexample: a later reconciliation call CAN change a once-set
numeric `initialPrice`: a fresh record for the same key carrying its own
`initialPrice` key (here 50) fully overwrites the prior 120. -/
theorem c2_counterexample_fresh_key_overwrites :
    (step5_merge histNone "2026-10-12" [some c2FreshEntry] [c2PriorEntry]).map
        (fun e => e.initialPrice) = [some (some 50)] ∧
      (step5_merge histNone "2026-10-12" [some c2FreshEntry] [c2PriorEntry]).map
          (fun e => e.initialPrice) ≠ [some (some 120)] := by
  constructor <;> decide

theorem lookupE_assignE_self (m : EntryMap) (k : String) (e : Entry) :
    lookupE (assignE m k e) k = some e := by
  rw [lookupE_assignE, if_pos rfl]

theorem mergeEntry_keeps_truthy_initialPrice (hist : String → String → Option ℚ)
    (today : String) (m : EntryMap) (entry : Entry) (k : String) (p : ℚ) (e' : Entry)
    (hp : p ≠ 0)
    (ht : upperStr (entry.ticker.getD "") ≠ "")
    (hkey : get_stock_key entry = k)
    (hen : entry.initialPrice = none)
    (he' : lookupE m k = some e')
    (hip : e'.initialPrice = some (some p)) :
    ∃ e3, lookupE (mergeEntry hist today m entry) k = some e3 ∧
      e3.initialPrice = some (some p) := by
  have hkey' : upperStr (entry.ticker.getD "") ++ "|" ++ entry.source.getD "Unknown" = k :=
    hkey
  rw [mergeEntry, if_neg ht, hkey', he']
  simp only [Option.getD_some, hip, hen, Option.isSome_some, Option.isNone_none,
    Bool.and_self, if_pos]
  have htr : truthyQ (some (some p)) = true := by
    simp [truthyQ, hp]
  rw [htr]
  simp only [if_true]
  exact ⟨_, lookupE_assignE_self m k _, rfl⟩

theorem mergeFold_keeps_truthy_initialPrice (hist : String → String → Option ℚ)
    (today : String) (crew : List (Option Entry)) (m : EntryMap) (k : String) (p : ℚ)
    (hp : p ≠ 0)
    (hm : ∃ e', lookupE m k = some e' ∧ e'.initialPrice = some (some p))
    (hcrew : ∀ i ∈ crew, ∀ e, i = some e → get_stock_key e = k → e.initialPrice = none) :
    ∃ e', lookupE (crew.foldl (mergeItem hist today) m) k = some e' ∧
      e'.initialPrice = some (some p) := by
  induction crew generalizing m with
  | nil => exact hm
  | cons i t ih =>
    rw [List.foldl_cons]
    refine ih _ ?_ fun i' hi' e he hke => hcrew i' (List.mem_cons_of_mem _ hi') e he hke
    cases i with
    | none => exact hm
    | some e =>
      obtain ⟨e', he', hip⟩ := hm
      by_cases hstay : upperStr (e.ticker.getD "") ≠ "" ∧ get_stock_key e = k
      · exact mergeEntry_keeps_truthy_initialPrice hist today m e k p e' hp hstay.1 hstay.2
          (hcrew (some e) (List.mem_cons_self _ _) e rfl hstay.2) he' hip
      · have hun : lookupE (mergeEntry hist today m e) k = lookupE m k := by
          apply lookupE_mergeEntry_ne
          intro hne hkey
          exact hstay ⟨hne, hkey⟩
        rw [show mergeItem hist today m (some e) = mergeEntry hist today m e from rfl, hun]
        exact ⟨e', he', hip⟩

/-- C2 amended: a once-set nonzero numeric `initialPrice` is preserved by
reconciliation PROVIDED every fresh record targeting that identity key
omits the `initialPrice` key entirely (a fresh record carrying the key -
even with value null - and a prior value of 0 can both change it; see the
counterexample). -/
theorem c2_amended_initialPrice_monotone_when_fresh_omits_key
    (hist : String → String → Option ℚ) (today : String)
    (crew : List (Option Entry)) (existing : List Entry) (E : Entry) (k : String) (p : ℚ)
    (hp : p ≠ 0) (hE : E ∈ existing) (hk : get_stock_key E = k)
    (huniq : ∀ e' ∈ existing, get_stock_key e' = k → e' = E)
    (hip : E.initialPrice = some (some p))
    (hcrew : ∀ i ∈ crew, ∀ e, i = some e → get_stock_key e = k → e.initialPrice = none) :
    ∃ e', lookupE (crew.foldl (mergeItem hist today) (buildIndex existing)) k = some e' ∧
      e'.initialPrice = some (some p) ∧ e' ∈ step5_merge hist today crew existing := by
  obtain ⟨e', h1, h2⟩ := mergeFold_keeps_truthy_initialPrice hist today crew _ k p hp
    ⟨E, by rw [lookupE_buildIndex]; exact lastKeyed_of_unique existing E k hE hk huniq, hip⟩
    hcrew
  exact ⟨e', h1, h2, mem_sortEntries_of_mem _ _ (mem_values_of_lookupE _ _ _ h1)⟩

/-- Witness for the amended C2: the prior 120 survives a fresh record
that omits the `initialPrice` key. -/
theorem c2_amended_witness :
    ∃ e', lookupE ([some nvdaFreshNoKey].foldl (mergeItem histNone "2026-10-12")
          (buildIndex [c2PriorEntry])) "NVDA|ChanA" = some e' ∧
      e'.initialPrice = some (some 120) ∧
      e' ∈ step5_merge histNone "2026-10-12" [some nvdaFreshNoKey] [c2PriorEntry] :=
  c2_amended_initialPrice_monotone_when_fresh_omits_key histNone "2026-10-12"
    [some nvdaFreshNoKey] [c2PriorEntry] c2PriorEntry "NVDA|ChanA" 120
    (by norm_num) (by decide) (by decide) (by decide) rfl
    (by
      intro i hi e he hke
      rw [List.mem_singleton] at hi
      subst hi
      injection he with he'
      subst he'
      rfl)

/-- C9: the merge identity key upper-cases the ticker while the stored
entry keeps its ticker verbatim: (a) tickers equal up to case with the
same source give the same key; (b) concretely, two fresh records with
tickers "nvda" and "NvDa" (same source) collapse to one output entry -
the later record - whose stored ticker is the non-upper-case "NvDa". -/
theorem c9_case_insensitive_key_case_preserving_entry :
    (∀ (e : Entry) (t1 t2 : String), upperStr t1 = upperStr t2 →
        get_stock_key { e with ticker := some t1 }
          = get_stock_key { e with ticker := some t2 }) ∧
      (step5_merge histNone "2026-10-12" [some c9LowerEntry, some c9MixedEntry] []).map
          (fun e => e.ticker) = [some "NvDa"] := by
  constructor
  · intro e t1 t2 h
    simp only [get_stock_key, Option.getD_some, h]
  · decide

/-- Witness for C9's universally quantified part at concrete tickers
differing only in case. -/
theorem c9_witness :
    get_stock_key { c9LowerEntry with ticker := some "nvda" }
      = get_stock_key { c9LowerEntry with ticker := some "NvDa" } :=
  c9_case_insensitive_key_case_preserving_entry.1 c9LowerEntry "nvda" "NvDa" (by decide)

/-! ### Lemmas on the historical price retry loop -/

theorem runAttempts_all_raised (outcomes : Nat → FetchOutcome) (round2 : ℚ → ℚ)
    (rem attempt : Nat) (h : ∀ j, j < rem → outcomes (attempt + j) = .raised) :
    runAttempts outcomes round2 rem attempt = none := by
  induction rem generalizing attempt with
  | zero => rfl
  | succ n ih =>
    rw [runAttempts]
    have h0 : outcomes attempt = .raised := by simpa using h 0 (Nat.succ_pos n)
    rw [h0]
    by_cases hn : n = 0
    · subst hn
      simp
    · rw [if_neg hn]
      refine ih (attempt + 1) fun j hj => ?_
      have := h (j + 1) (by omega)
      rwa [show attempt + (j + 1) = attempt + 1 + j by omega] at this

theorem runAttempts_some (outcomes : Nat → FetchOutcome) (round2 : ℚ → ℚ)
    (rem attempt : Nat) (x : ℚ)
    (h : runAttempts outcomes round2 rem attempt = some x) :
    ∃ j, j < rem ∧ ∃ r target, outcomes (attempt + j) = .ok r target ∧
      extractPrice round2 r target = .ok (some x) := by
  induction rem generalizing attempt with
  | zero => cases h
  | succ n ih =>
    cases ho : outcomes attempt with
    | raised =>
      simp only [runAttempts, ho] at h
      by_cases hn : n = 0
      · subst hn
        simp at h
      · rw [if_neg hn] at h
        obtain ⟨j, hj, r, tg, h1, h2⟩ := ih (attempt + 1) h
        refine ⟨j + 1, by omega, r, tg, ?_, h2⟩
        rwa [show attempt + (j + 1) = attempt + 1 + j by omega]
    | ok r tg =>
      simp only [runAttempts, ho] at h
      cases he : extractPrice round2 r tg with
      | error u =>
        simp only [he] at h
        by_cases hn : n = 0
        · subst hn
          simp at h
        · rw [if_neg hn] at h
          obtain ⟨j, hj, r2, tg2, h1, h2⟩ := ih (attempt + 1) h
          refine ⟨j + 1, by omega, r2, tg2, ?_, h2⟩
          rwa [show attempt + (j + 1) = attempt + 1 + j by omega]
      | ok res =>
        simp only [he] at h
        refine ⟨0, Nat.succ_pos n, r, tg, by simpa using ho, ?_⟩
        rw [he, h]

theorem runAttempts_congr (o1 o2 : Nat → FetchOutcome) (round2 : ℚ → ℚ)
    (rem attempt : Nat)
    (h : ∀ j, j < rem → o1 (attempt + j) = o2 (attempt + j)) :
    runAttempts o1 round2 rem attempt = runAttempts o2 round2 rem attempt := by
  induction rem generalizing attempt with
  | zero => rfl
  | succ n ih =>
    have h0 : o2 attempt = o1 attempt := by
      have := h 0 (Nat.succ_pos n)
      simpa using this.symm
    have hshift : ∀ j, j < n → o1 (attempt + 1 + j) = o2 (attempt + 1 + j) := by
      intro j hj
      have := h (j + 1) (by omega)
      rwa [show attempt + (j + 1) = attempt + 1 + j by omega] at this
    cases ho : o1 attempt with
    | raised =>
      simp only [runAttempts, ho, h0]
      by_cases hn : n = 0
      · subst hn
        rfl
      · rw [if_neg hn, if_neg hn]
        exact ih (attempt + 1) hshift
    | ok r tg =>
      simp only [runAttempts, ho, h0]
      cases he : extractPrice round2 r tg with
      | error u =>
        simp only [he]
        by_cases hn : n = 0
        · subst hn
          rfl
        · rw [if_neg hn, if_neg hn]
          exact ih (attempt + 1) hshift
      | ok res => simp only [he]

theorem extractPrice_ok_some (round2 : ℚ → ℚ) (r : ChartResp) (target : Int) (x : ℚ)
    (h : extractPrice round2 r target = .ok (some x)) :
    ∃ bi bd c, scanBest target r.closes 0 r.timestamps none = some (bi, bd) ∧
      r.closes.getD bi none = some c ∧ x = round2 c := by
  rw [extractPrice] at h
  split_ifs at h
  · simp at h
  · simp at h
  · simp at h
  · cases hs : scanBest target r.closes 0 r.timestamps none with
    | none =>
      simp only [hs] at h
      simp at h
    | some bp =>
      obtain ⟨bi, bd⟩ := bp
      simp only [hs] at h
      cases hc : r.closes.getD bi none with
      | none =>
        simp only [hc] at h
        simp at h
      | some c =>
        simp only [hc] at h
        have hx : round2 c = x := by
          injection h with h1
          injection h1
        exact ⟨bi, bd, c, rfl, hc, hx.symm⟩

/-- C10: the retry loop of `get_historical_price` is total over arbitrary
per-attempt behaviour of the date parser and network: (a) when every
attempt raises, the function returns `none`; (b) when it returns a
number, that number is `round(c, 2)` for the valid close `c` selected at
the best-distance index of some successful attempt's response; (c) the
function consults at most `max_retries` attempt outcomes. -/
theorem c10_get_historical_price_total (o o2 : Nat → FetchOutcome) (round2 : ℚ → ℚ)
    (max_retries : Nat) :
    ((∀ j, j < max_retries → o j = .raised) →
        get_historical_price o round2 max_retries = none) ∧
      (∀ x, get_historical_price o round2 max_retries = some x →
        ∃ j, j < max_retries ∧ ∃ r target, o j = .ok r target ∧
          ∃ bi bd c, scanBest target r.closes 0 r.timestamps none = some (bi, bd) ∧
            r.closes.getD bi none = some c ∧ x = round2 c) ∧
      ((∀ j, j < max_retries → o j = o2 j) →
        get_historical_price o round2 max_retries
          = get_historical_price o2 round2 max_retries) := by
  refine ⟨?_, ?_, ?_⟩
  · intro h
    exact runAttempts_all_raised o round2 max_retries 0 fun j hj => by
      simpa using h j hj
  · intro x hx
    obtain ⟨j, hj, r, tg, h1, h2⟩ := runAttempts_some o round2 max_retries 0 x hx
    obtain ⟨bi, bd, c, hs, hc, hxr⟩ := extractPrice_ok_some round2 r tg x h2
    exact ⟨j, hj, r, tg, by simpa using h1, bi, bd, c, hs, hc, hxr⟩
  · intro h
    exact runAttempts_congr o o2 round2 max_retries 0 fun j hj => by
      simpa using h j hj

/-- Witness for C10 at a concrete all-raising outcome sequence. -/
theorem c10_witness :
    get_historical_price (fun _ => .raised) (fun q => q) 2 = none :=
  (c10_get_historical_price_total (fun _ => .raised) (fun _ => .raised)
    (fun q => q) 2).1 fun _ _ => rfl

/-! ### Discovery engine: per-key semantics and enumeration-order lemmas -/

theorem lookupA_upsertA (m : RecMap) (k k2 : String)
    (f : Recommendation → Recommendation) (r0 : Recommendation) :
    lookupA (upsertA m k f r0) k2
      = if k = k2 then some (f ((lookupA m k).getD r0)) else lookupA m k2 := by
  induction m with
  | nil => by_cases h : k = k2 <;> simp [upsertA, lookupA, h]
  | cons p m ih =>
    obtain ⟨k', r⟩ := p
    by_cases h : k' = k
    · subst h
      by_cases h2 : k' = k2 <;> simp [upsertA, lookupA, h2]
    · by_cases h2 : k' = k2
      · subst h2
        have hkk : ¬k = k' := fun hh => h hh.symm
        simp [upsertA, lookupA, h, hkk]
      · simp [upsertA, lookupA, h, h2, ih]

theorem lookupA_foldl_processTicker (v : Video) (l : List String) (m : RecMap) (k : String) :
    lookupA (l.foldl (processTicker v) m) k = l.foldl (stepTk v k) (lookupA m k) := by
  induction l generalizing m with
  | nil => rfl
  | cons s t ih =>
    rw [List.foldl_cons, List.foldl_cons, ih]
    congr 1
    rw [processTicker, lookupA_upsertA, stepTk]
    by_cases hk : toKey (upperStr s) v.channelName = k
    · rw [if_pos hk, if_pos hk, hk]
    · rw [if_neg hk, if_neg hk]

theorem toKey_left_inj (t1 t2 c : String) (h : toKey t1 c = toKey t2 c) : t1 = t2 := by
  apply String.ext
  have hd : t1.data ++ ("|" ++ c).data = t2.data ++ ("|" ++ c).data := by
    have := congrArg String.data h
    simpa [toKey, String.data_append, List.append_assoc] using this
  exact List.append_cancel_right hd

theorem stepTk_comm (v : Video) (k : String) (o : Option Recommendation) (s1 s2 : String) :
    stepTk v k (stepTk v k o s1) s2 = stepTk v k (stepTk v k o s2) s1 := by
  by_cases c1 : toKey (upperStr s1) v.channelName = k
  · by_cases c2 : toKey (upperStr s2) v.channelName = k
    · have he : upperStr s1 = upperStr s2 :=
        toKey_left_inj _ _ _ (c1.trans c2.symm)
      rw [stepTk, stepTk, stepTk, stepTk, he]
    · rw [stepTk, stepTk, if_pos c1, stepTk, if_neg c2, stepTk, if_neg c2, if_pos c1]
  · by_cases c2 : toKey (upperStr s2) v.channelName = k
    · rw [stepTk, stepTk, if_neg c1, stepTk, if_pos c2, stepTk, if_pos c2, if_neg c1]
    · rw [stepTk, stepTk, if_neg c1, if_neg c2, stepTk, stepTk, if_neg c2, if_neg c1]

theorem foldl_stepTk_perm (v : Video) (k : String) (l1 l2 : List String)
    (hp : l1.Perm l2) (o : Option Recommendation) :
    l1.foldl (stepTk v k) o = l2.foldl (stepTk v k) o :=
  hp.foldl_eq' (fun x _ y _ z => stepTk_comm v k z x y) o

theorem lookupA_extract (ord : List String → List String)
    (hp : ∀ l, (ord l).Perm l) (videos : List Video) (k : String) :
    lookupA (extract_recommendations_from_videos ord videos) k = lookupSpec videos k := by
  suffices hgen : ∀ m, lookupA (videos.foldl
      (fun m v => ((ord (combinedTickers v)).foldl (processTicker v) m)) m) k
      = videos.foldl (fun o v => stepVideo v k o) (lookupA m k) by
    exact hgen []
  induction videos with
  | nil => intro m; rfl
  | cons v t ih =>
    intro m
    rw [List.foldl_cons, List.foldl_cons, ih]
    congr 1
    rw [lookupA_foldl_processTicker, stepVideo]
    exact foldl_stepTk_perm v k _ _ (hp _) _

theorem keysOf_upsertA (m : RecMap) (k : String) (f : Recommendation → Recommendation)
    (r0 : Recommendation) :
    keysOf (upsertA m k f r0) = if k ∈ keysOf m then keysOf m else keysOf m ++ [k] := by
  induction m with
  | nil => simp [upsertA, keysOf]
  | cons p m ih =>
    obtain ⟨k', r⟩ := p
    by_cases h : k' = k
    · subst h
      simp [upsertA, keysOf]
    · have hne : ¬k = k' := fun hh => h hh.symm
      have ihk : List.map Prod.fst (upsertA m k f r0)
          = if k ∈ List.map Prod.fst m then List.map Prod.fst m
            else List.map Prod.fst m ++ [k] := ih
      simp only [upsertA, if_neg h, keysOf, List.map_cons, List.mem_cons]
      by_cases hm : k ∈ List.map Prod.fst m
      · rw [if_pos (Or.inr hm), ihk, if_pos hm]
      · rw [if_neg (by
          intro hc
          rcases hc with hc | hc
          · exact hne hc
          · exact hm hc), ihk, if_neg hm, List.cons_append]

theorem nodup_keysOf_foldl_processTicker (v : Video) (l : List String) (m : RecMap)
    (h : (keysOf m).Nodup) : (keysOf (l.foldl (processTicker v) m)).Nodup := by
  induction l generalizing m with
  | nil => exact h
  | cons s t ih =>
    rw [List.foldl_cons]
    apply ih
    rw [processTicker, keysOf_upsertA]
    by_cases hm : toKey (upperStr s) v.channelName ∈ keysOf m
    · rwa [if_pos hm]
    · rw [if_neg hm]
      simp [List.nodup_append, h, hm]

theorem nodup_keysOf_extract (ord : List String → List String) (videos : List Video) :
    (keysOf (extract_recommendations_from_videos ord videos)).Nodup := by
  suffices hgen : ∀ m, (keysOf m).Nodup → (keysOf (videos.foldl
      (fun m v => ((ord (combinedTickers v)).foldl (processTicker v) m)) m)).Nodup by
    exact hgen [] (by simp [keysOf])
  induction videos with
  | nil => exact fun m h => h
  | cons v t ih =>
    intro m h
    rw [List.foldl_cons]
    exact ih _ (nodup_keysOf_foldl_processTicker v _ m h)

theorem lookupA_eq_of_mem (m : RecMap) (k : String) (r : Recommendation)
    (hnd : (keysOf m).Nodup) (hmem : (k, r) ∈ m) : lookupA m k = some r := by
  induction m with
  | nil => cases hmem
  | cons p m ih =>
    obtain ⟨k', r'⟩ := p
    rcases List.mem_cons.1 hmem with h | h
    · cases h
      rw [lookupA, if_pos rfl]
    · have hk : k' ≠ k := by
        intro hh
        subst hh
        have hmem2 : k' ∈ keysOf m := List.mem_map.2 ⟨(k', r), h, rfl⟩
        have hno : k' ∉ keysOf m := by
          have hh2 := hnd
          simp only [keysOf, List.map_cons, List.nodup_cons] at hh2
          exact hh2.1
        exact hno hmem2
      rw [lookupA, if_neg hk]
      refine ih ?_ h
      have hh2 := hnd
      simp only [keysOf, List.map_cons, List.nodup_cons] at hh2
      exact hh2.2

theorem mcO_foldl_stepTk (v : Video) (k : String) (l : List String)
    (o : Option Recommendation) :
    mcO (l.foldl (stepTk v k) o)
      = mcO o + l.countP (fun s => toKey (upperStr s) v.channelName == k) := by
  induction l generalizing o with
  | nil => simp [List.countP, List.countP.go]
  | cons s t ih =>
    rw [List.foldl_cons, ih, List.countP_cons]
    by_cases hk : toKey (upperStr s) v.channelName = k
    · have hd : (toKey (upperStr s) v.channelName == k) = true := by
        simp [hk]
      rw [stepTk, if_pos hk, hd]
      cases o with
      | none =>
        simp only [mcO, updRec, initRec, Option.getD_none, if_true]
        omega
      | some r =>
        simp only [mcO, updRec, Option.getD_some, if_true]
        omega
    · have hd : (toKey (upperStr s) v.channelName == k) = false := by
        simp [hk]
      rw [stepTk, if_neg hk, hd]
      simp

theorem mcO_lookupSpec (videos : List Video) (k : String) :
    mcO (lookupSpec videos k)
      = (videos.map fun v => (combinedTickers v).countP
          (fun s => toKey (upperStr s) v.channelName == k)).sum := by
  suffices hgen : ∀ o, mcO (videos.foldl (fun o v => stepVideo v k o) o)
      = mcO o + (videos.map fun v => (combinedTickers v).countP
          (fun s => toKey (upperStr s) v.channelName == k)).sum by
    have := hgen none
    simpa [lookupSpec, mcO] using this
  induction videos with
  | nil => simp
  | cons v t ih =>
    intro o
    rw [List.foldl_cons, ih, List.map_cons, List.sum_cons, stepVideo, mcO_foldl_stepTk]
    omega

theorem stepTk_foldl_invariant (v : Video) (k : String) (l : List String)
    (o : Option Recommendation)
    (hl : ∀ s ∈ l, cleanTicker s)
    (ho : ∀ r, o = some r →
      toKey r.ticker r.channel = k ∧ upperStr r.ticker = r.ticker ∧ '|' ∉ r.ticker.data ∧
        r.videos.Nodup) :
    ∀ r, l.foldl (stepTk v k) o = some r →
      toKey r.ticker r.channel = k ∧ upperStr r.ticker = r.ticker ∧ '|' ∉ r.ticker.data ∧
        r.videos.Nodup := by
  induction l generalizing o with
  | nil => exact ho
  | cons s t ih =>
    rw [List.foldl_cons]
    refine ih _ (fun s' hs' => hl s' (List.mem_cons_of_mem _ hs')) ?_
    intro r hr
    rw [stepTk] at hr
    by_cases hk : toKey (upperStr s) v.channelName = k
    · rw [if_pos hk] at hr
      obtain ⟨hclean, hpipe⟩ := hl s (List.mem_cons_self _ _)
      cases ho2 : o with
      | none =>
        subst ho2
        cases hr
        have hk2 : toKey s v.channelName = k := by rwa [hclean] at hk
        refine ⟨?_, ?_, ?_, ?_⟩ <;>
          simp [updRec, initRec, hclean, hpipe, hk2]
      | some r0 =>
        subst ho2
        cases hr
        obtain ⟨h1, h2, h3, h4⟩ := ho r0 rfl
        refine ⟨by simp [updRec, h1], by simp [updRec, h2], by simp [updRec, h3], ?_⟩
        simp only [updRec, Option.getD_some]
        by_cases hv : v.title ∈ r0.videos
        · simpa [hv] using h4
        · rw [if_neg hv]
          simp [List.nodup_append, h4, hv]
    · rw [if_neg hk] at hr
      exact ho r hr

theorem lookupSpec_invariant (videos : List Video) (k : String)
    (hclean : ∀ v ∈ videos, ∀ s ∈ v.tickersBought ++ v.tickersRecommended, cleanTicker s)
    (r : Recommendation) (h : lookupSpec videos k = some r) :
    toKey r.ticker r.channel = k ∧ upperStr r.ticker = r.ticker ∧ '|' ∉ r.ticker.data ∧
      r.videos.Nodup := by
  suffices hgen : ∀ vs : List Video,
      (∀ v ∈ vs, ∀ s ∈ v.tickersBought ++ v.tickersRecommended, cleanTicker s) →
      ∀ o : Option Recommendation, (∀ r', o = some r' →
        toKey r'.ticker r'.channel = k ∧ upperStr r'.ticker = r'.ticker ∧
          '|' ∉ r'.ticker.data ∧ r'.videos.Nodup) →
      ∀ r', vs.foldl (fun o v => stepVideo v k o) o = some r' →
        toKey r'.ticker r'.channel = k ∧ upperStr r'.ticker = r'.ticker ∧
          '|' ∉ r'.ticker.data ∧ r'.videos.Nodup by
    exact hgen videos hclean none (fun r' hr' => by cases hr') r h
  intro vs
  induction vs with
  | nil => exact fun _ o ho r' h' => ho r' h'
  | cons v t ih =>
    intro hcl o ho r' h'
    rw [List.foldl_cons] at h'
    refine ih (fun v' hv' => hcl v' (List.mem_cons_of_mem _ hv')) _ ?_ r' h'
    intro r2 h2
    refine stepTk_foldl_invariant v k (combinedTickers v) o ?_ ho r2 h2
    intro s hs
    exact hcl v (List.mem_cons_self _ _) s (List.mem_dedup.1 hs)

theorem pipe_split (l1 l2 r1 r2 : List Char) (h1 : '|' ∉ l1) (h2 : '|' ∉ l2)
    (h : l1 ++ '|' :: r1 = l2 ++ '|' :: r2) : l1 = l2 ∧ r1 = r2 := by
  induction l1 generalizing l2 with
  | nil =>
    cases l2 with
    | nil => simpa using h
    | cons c cs =>
      simp only [List.nil_append, List.cons_append, List.cons.injEq] at h
      exact absurd (h.1 ▸ List.mem_cons_self '|' cs) (fun hc => h2 hc)
  | cons c cs ih =>
    cases l2 with
    | nil =>
      simp only [List.nil_append, List.cons_append, List.cons.injEq] at h
      exact absurd (h.1.symm ▸ List.mem_cons_self '|' cs) (fun hc => h1 hc)
    | cons d ds =>
      simp only [List.cons_append, List.cons.injEq] at h
      obtain ⟨hcd, hrest⟩ := h
      have hnc : '|' ∉ cs := fun hc => h1 (List.mem_cons_of_mem _ hc)
      have hnd : '|' ∉ ds := fun hd => h2 (List.mem_cons_of_mem _ hd)
      obtain ⟨he1, he2⟩ := ih ds hnc hnd hrest
      exact ⟨by rw [hcd, he1], he2⟩

theorem toKey_data (t c : String) : (toKey t c).data = t.data ++ '|' :: c.data := by
  simp [toKey, String.data_append]

theorem toKey_inj_of_pipeFree (t1 t2 c1 c2 : String)
    (p1 : '|' ∉ t1.data) (p2 : '|' ∉ t2.data) (h : toKey t1 c1 = toKey t2 c2) :
    t1 = t2 ∧ c1 = c2 := by
  have hd := congrArg String.data h
  rw [toKey_data, toKey_data] at hd
  obtain ⟨e1, e2⟩ := pipe_split _ _ _ _ p1 p2 hd
  exact ⟨String.ext e1, String.ext e2⟩

theorem countP_congr_mem (l : List String) (p q : String → Bool)
    (h : ∀ s ∈ l, p s = q s) : l.countP p = l.countP q := by
  induction l with
  | nil => rfl
  | cons s t ih =>
    rw [List.countP_cons, List.countP_cons,
      ih (fun s' hs' => h s' (List.mem_cons_of_mem _ hs')),
      h s (List.mem_cons_self _ _)]

theorem countP_clean_video (v : Video) (T chan : String)
    (hv : ∀ s ∈ v.tickersBought ++ v.tickersRecommended, cleanTicker s)
    (hT : '|' ∉ T.data) :
    (combinedTickers v).countP (fun s => toKey (upperStr s) v.channelName == toKey T chan)
      = if v.channelName = chan ∧ (T ∈ v.tickersBought ∨ T ∈ v.tickersRecommended)
        then 1 else 0 := by
  have hmem : ∀ s ∈ combinedTickers v, cleanTicker s := by
    intro s hs
    exact hv s (List.mem_dedup.1 hs)
  by_cases hchan : v.channelName = chan
  · subst hchan
    have hpred : ∀ s ∈ combinedTickers v,
        (toKey (upperStr s) v.channelName == toKey T v.channelName) = (s == T) := by
      intro s hs
      obtain ⟨hcl, hpf⟩ := hmem s hs
      rw [hcl]
      by_cases hst : s = T
      · subst hst
        simp
      · have hne : toKey s v.channelName ≠ toKey T v.channelName := by
          intro hc
          exact hst (toKey_inj_of_pipeFree s T _ _ hpf hT hc).1
        simp [hst, hne]
    rw [countP_congr_mem _ _ _ hpred]
    have hcount : (combinedTickers v).countP (fun s => s == T)
        = if T ∈ combinedTickers v then 1 else 0 := by
      by_cases hTm : T ∈ combinedTickers v
      · rw [if_pos hTm]
        have := List.count_eq_one_of_mem (List.nodup_dedup _) hTm
        simpa [List.count] using this
      · rw [if_neg hTm]
        have := List.count_eq_zero_of_not_mem hTm
        simpa [List.count] using this
    rw [hcount]
    by_cases hTm : T ∈ combinedTickers v
    · rw [if_pos hTm, if_pos ⟨rfl, by
        have := List.mem_dedup.1 hTm
        simpa [List.mem_append] using this⟩]
    · rw [if_neg hTm, if_neg ?_]
      rintro ⟨-, hTb⟩
      exact hTm (List.mem_dedup.2 (List.mem_append.2 hTb))
  · have hpred : ∀ s ∈ combinedTickers v,
        (toKey (upperStr s) v.channelName == toKey T chan) = false := by
      intro s hs
      obtain ⟨hcl, hpf⟩ := hmem s hs
      rw [hcl]
      have hne : toKey s v.channelName ≠ toKey T chan := by
        intro hc
        exact hchan (toKey_inj_of_pipeFree s T _ _ hpf hT hc).2
      simp [hne]
    rw [countP_congr_mem _ _ _ hpred]
    rw [if_neg (by rintro ⟨hc, -⟩; exact hchan hc)]
    simp [List.countP_eq_length_filter]

theorem stepTk_foldl_nodup (v : Video) (k : String) (l : List String)
    (o : Option Recommendation)
    (ho : ∀ r, o = some r → r.videos.Nodup) :
    ∀ r, l.foldl (stepTk v k) o = some r → r.videos.Nodup := by
  induction l generalizing o with
  | nil => exact ho
  | cons s t ih =>
    rw [List.foldl_cons]
    refine ih _ ?_
    intro r hr
    rw [stepTk] at hr
    by_cases hk : toKey (upperStr s) v.channelName = k
    · rw [if_pos hk] at hr
      cases ho2 : o with
      | none =>
        subst ho2
        cases hr
        simp [updRec, initRec]
      | some r0 =>
        subst ho2
        cases hr
        have h4 := ho r0 rfl
        simp only [updRec, Option.getD_some]
        by_cases hv : v.title ∈ r0.videos
        · simpa [hv] using h4
        · rw [if_neg hv]
          simp [List.nodup_append, h4, hv]
    · rw [if_neg hk] at hr
      exact ho r hr

theorem lookupSpec_videos_nodup (videos : List Video) (k : String) (r : Recommendation)
    (h : lookupSpec videos k = some r) : r.videos.Nodup := by
  suffices hgen : ∀ vs : List Video, ∀ o : Option Recommendation,
      (∀ r', o = some r' → r'.videos.Nodup) →
      ∀ r', vs.foldl (fun o v => stepVideo v k o) o = some r' → r'.videos.Nodup by
    exact hgen videos none (fun r' hr' => by cases hr') r h
  intro vs
  induction vs with
  | nil => exact fun o ho r' h' => ho r' h'
  | cons v t ih =>
    intro o ho r' h'
    rw [List.foldl_cons] at h'
    exact ih _ (stepTk_foldl_nodup v k (combinedTickers v) o ho) r' h'

theorem sum_ite_videosMentioning (videos : List Video) (T chan : String) :
    (videos.map fun v =>
        if v.channelName = chan ∧ (T ∈ v.tickersBought ∨ T ∈ v.tickersRecommended)
        then 1 else 0).sum
      = videosMentioning videos T chan := by
  induction videos with
  | nil => rfl
  | cons v t ih =>
    rw [List.map_cons, List.sum_cons, ih]
    simp only [videosMentioning, List.filter_cons]
    by_cases h : v.channelName = chan ∧ (T ∈ v.tickersBought ∨ T ∈ v.tickersRecommended)
    · have hp : (v.channelName == chan &&
          (decide (T ∈ v.tickersBought) || decide (T ∈ v.tickersRecommended))) = true := by
        rcases h with ⟨h1, h2⟩
        rcases h2 with h2 | h2 <;> simp [h1, h2]
      rw [if_pos h, hp, if_pos rfl, List.length_cons]
      omega
    · have hp : (v.channelName == chan &&
          (decide (T ∈ v.tickersBought) || decide (T ∈ v.tickersRecommended))) = false := by
        by_cases h1 : v.channelName = chan
        · have h2 : ¬(T ∈ v.tickersBought ∨ T ∈ v.tickersRecommended) := fun hc => h ⟨h1, hc⟩
          push_neg at h2
          simp [h1, h2.1, h2.2]
        · simp [h1]
      rw [if_neg h, hp]
      simp

/-- C6 amended: when every listed ticker string in the batch is already
upper-case and free of the key separator, the `mentionCount` of every
aggregate produced by `extract_recommendations_from_videos` equals the
number of videos from that channel in which the ticker appears in
`tickersBought` or `tickersRecommended` - one per video even when the
ticker is in both sets.  (Mixed-case inputs break the rule; see the
counterexample.) -/
theorem c6_amended_mentionCount (ord : List String → List String)
    (hp : ∀ l, (ord l).Perm l) (videos : List Video)
    (hclean : ∀ v ∈ videos, ∀ s ∈ v.tickersBought ++ v.tickersRecommended, cleanTicker s)
    (k : String) (r : Recommendation)
    (hmem : (k, r) ∈ extract_recommendations_from_videos ord videos) :
    r.mentionCount = videosMentioning videos r.ticker r.channel := by
  have hlook : lookupA (extract_recommendations_from_videos ord videos) k = some r :=
    lookupA_eq_of_mem _ _ _ (nodup_keysOf_extract ord videos) hmem
  have hspec : lookupSpec videos k = some r := by
    rw [← lookupA_extract ord hp videos k]
    exact hlook
  obtain ⟨hkey, hupper, hpipe, hnd⟩ := lookupSpec_invariant videos k hclean r hspec
  have hmc : r.mentionCount = mcO (lookupSpec videos k) := by
    rw [hspec]
    rfl
  rw [hmc, mcO_lookupSpec]
  subst hkey
  rw [List.map_congr_left fun v hv => countP_clean_video v r.ticker r.channel (hclean v hv) hpipe]
  exact sum_ite_videosMentioning videos r.ticker r.channel

theorem filter_orderedInsert_count (a : Recommendation) (l : List Recommendation) (c : Nat) :
    (List.orderedInsert (fun x y => y.mentionCount ≤ x.mentionCount) a l).filter
        (fun r => r.mentionCount == c)
      = if a.mentionCount = c then a :: l.filter (fun r => r.mentionCount == c)
        else l.filter (fun r => r.mentionCount == c) := by
  induction l with
  | nil =>
    by_cases hac : a.mentionCount = c <;>
      simp [List.orderedInsert, List.filter_cons, hac]
  | cons b t ih =>
    rw [List.orderedInsert]
    by_cases hr : b.mentionCount ≤ a.mentionCount
    · rw [if_pos hr]
      by_cases hac : a.mentionCount = c <;>
        simp [List.filter_cons, hac]
    · rw [if_neg hr]
      by_cases hac : a.mentionCount = c
      · have hbc : b.mentionCount ≠ c := by omega
        rw [List.filter_cons, List.filter_cons]
        simp only [ih, if_pos hac]
        simp [hbc]
      · have hnb : (fun r => r.mentionCount == c) b = (b.mentionCount == c) := rfl
        rw [List.filter_cons, List.filter_cons]
        simp only [ih, if_neg hac]

theorem sortByMentions_filter (l : List Recommendation) (c : Nat) :
    (sortByMentions l).filter (fun r => r.mentionCount == c)
      = l.filter (fun r => r.mentionCount == c) := by
  induction l with
  | nil => rfl
  | cons x t ih =>
    rw [sortByMentions, List.insertionSort]
    rw [show List.insertionSort (fun a b => b.mentionCount ≤ a.mentionCount) t
        = sortByMentions t from rfl]
    rw [filter_orderedInsert_count, List.filter_cons]
    by_cases hx : x.mentionCount = c
    · rw [if_pos hx, ih]
      simp [hx]
    · rw [if_neg hx, ih]
      simp [hx]

theorem sortByMentions_sorted (l : List Recommendation) :
    List.Sorted (fun a b => b.mentionCount ≤ a.mentionCount) (sortByMentions l) := by
  haveI hto : IsTotal Recommendation (fun a b => b.mentionCount ≤ a.mentionCount) :=
    ⟨fun a b => (Nat.le_total b.mentionCount a.mentionCount).elim Or.inl Or.inr⟩
  haveI htr : IsTrans Recommendation (fun a b => b.mentionCount ≤ a.mentionCount) :=
    ⟨fun _ _ _ h1 h2 => Nat.le_trans h2 h1⟩
  exact List.sorted_insertionSort _ l

/-- C7: the `new_tickers` list of `discover_new_tickers` is non-increasing
in `mentionCount`, and for every count the subsequence at that count
equals the pre-sort subsequence: ties keep the discovery order. -/
theorem c7_newCandidates_sorted_stable (ord : List String → List String)
    (videos : List Video) (stocks : List Entry) :
    List.Sorted (fun a b => b.mentionCount ≤ a.mentionCount)
        (discover_new_tickers ord videos stocks).1 ∧
      ∀ c, ((discover_new_tickers ord videos stocks).1.filter
          fun r => r.mentionCount == c)
        = ((newTickersPre ord videos stocks).filter fun r => r.mentionCount == c) :=
  ⟨sortByMentions_sorted _, fun c => sortByMentions_filter _ c⟩

theorem lookupA_eq_none_iff (m : RecMap) (k : String) :
    lookupA m k = none ↔ k ∉ keysOf m := by
  induction m with
  | nil => simp [lookupA, keysOf]
  | cons p m ih =>
    obtain ⟨k', r⟩ := p
    rw [lookupA]
    by_cases h : k' = k
    · subst h
      simp [keysOf]
    · simp only [if_neg h, keysOf, List.map_cons, List.mem_cons]
      rw [ih]
      constructor
      · rintro hk (hc | hc)
        · exact h hc.symm
        · exact hk hc
      · intro hk hc
        exact hk (Or.inr hc)

theorem lookupA_some_decompose (m : RecMap) (k : String) (r : Recommendation)
    (h : lookupA m k = some r) :
    ∃ l t, m = l ++ (k, r) :: t ∧ k ∉ keysOf l := by
  induction m with
  | nil => cases h
  | cons p m ih =>
    obtain ⟨k', r'⟩ := p
    rw [lookupA] at h
    by_cases hk : k' = k
    · subst hk
      rw [if_pos rfl] at h
      cases h
      exact ⟨[], m, rfl, by simp [keysOf]⟩
    · rw [if_neg hk] at h
      obtain ⟨l, t, hm, hl⟩ := ih h
      refine ⟨(k', r') :: l, t, by simp [hm], ?_⟩
      simp only [keysOf, List.map_cons, List.mem_cons]
      rintro (hc | hc)
      · exact hk hc.symm
      · exact hl hc

theorem lookupA_append_right (l m : RecMap) (k : String) (h : k ∉ keysOf l) :
    lookupA (l ++ m) k = lookupA m k := by
  induction l with
  | nil => rfl
  | cons p t ih =>
    obtain ⟨k', r⟩ := p
    simp only [keysOf, List.map_cons, List.mem_cons] at h
    push_neg at h
    rw [List.cons_append, lookupA, if_neg (fun hc => h.1 hc.symm)]
    exact ih (by simpa [keysOf] using h.2)

theorem lookupA_skip_middle (l t2 : RecMap) (k k' : String) (r : Recommendation)
    (hkk : k' ≠ k) :
    lookupA (l ++ (k, r) :: t2) k' = lookupA (l ++ t2) k' := by
  induction l with
  | nil =>
    rw [List.nil_append, List.nil_append, lookupA, if_neg (fun hc => hkk hc.symm)]
  | cons q lt ihl =>
    obtain ⟨kq, rq⟩ := q
    rw [List.cons_append, List.cons_append, lookupA, lookupA]
    by_cases hq : kq = k'
    · rw [if_pos hq, if_pos hq]
    · rw [if_neg hq, if_neg hq, ihl]

theorem lookupA_ext_perm (m1 : RecMap) : ∀ m2 : RecMap,
    (keysOf m1).Nodup → (keysOf m2).Nodup →
    (∀ k, lookupA m1 k = lookupA m2 k) → m1.Perm m2 := by
  induction m1 with
  | nil =>
    intro m2 h1 h2 h
    cases m2 with
    | nil => exact List.Perm.refl _
    | cons p t =>
      obtain ⟨k, r⟩ := p
      have hc := h k
      simp [lookupA] at hc
  | cons p t1 ih =>
    intro m2 h1 h2 h
    obtain ⟨k, r⟩ := p
    have hk2 : lookupA m2 k = some r := by
      rw [← h k]
      simp [lookupA]
    obtain ⟨l, t2, hm2, hl⟩ := lookupA_some_decompose m2 k r hk2
    subst hm2
    have hknt1 : k ∉ keysOf t1 := by
      simp only [keysOf, List.map_cons, List.nodup_cons] at h1
      exact h1.1
    have ht1nodup : (keysOf t1).Nodup := by
      simp only [keysOf, List.map_cons, List.nodup_cons] at h1
      exact h1.2
    have hkeys_split : keysOf (l ++ (k, r) :: t2) = keysOf l ++ k :: keysOf t2 := by
      simp [keysOf]
    have hk2keys := h2
    rw [hkeys_split] at hk2keys
    have hsplit := List.nodup_append.1 hk2keys
    have hknt2 : k ∉ keysOf t2 := (List.nodup_cons.1 hsplit.2.1).1
    have hnd_lt2 : (keysOf (l ++ t2)).Nodup := by
      have heq : keysOf (l ++ t2) = keysOf l ++ keysOf t2 := by simp [keysOf]
      rw [heq]
      refine List.nodup_append.2 ⟨hsplit.1, (List.nodup_cons.1 hsplit.2.1).2, ?_⟩
      intro a ha ha2
      exact hsplit.2.2 ha (List.mem_cons_of_mem _ ha2)
    have hlook : ∀ k', lookupA t1 k' = lookupA (l ++ t2) k' := by
      intro k'
      by_cases hkk : k' = k
      · subst hkk
        rw [(lookupA_eq_none_iff t1 k').2 hknt1,
          lookupA_append_right l t2 k' hl,
          (lookupA_eq_none_iff t2 k').2 hknt2]
      · have hck := h k'
        rw [lookupA, if_neg (fun hc => hkk hc.symm)] at hck
        rw [hck, lookupA_skip_middle l t2 k k' r hkk]
    have hperm : t1.Perm (l ++ t2) := ih (l ++ t2) ht1nodup hnd_lt2 hlook
    exact List.Perm.trans (hperm.cons (k, r)) List.perm_middle.symm

/-- C3 counterexample: with identical inputs, two valid set-enumeration
orders (as arise under different string-hash seeds) yield different
`new_tickers` lists - the two tied candidates swap - so discovery is not
referentially transparent across program runs. -/
theorem c3_counterexample_hash_order_changes_output :
    ((discover_new_tickers id [c3Video] []).1.map fun r => r.ticker) = ["AA", "BB"] ∧
      ((discover_new_tickers List.reverse [c3Video] []).1.map fun r => r.ticker)
        = ["BB", "AA"] ∧
      discover_new_tickers id [c3Video] [] ≠ discover_new_tickers List.reverse [c3Video] [] := by
  refine ⟨by decide, by decide, by decide⟩

/-- C3 amended: for fixed inputs, the CONTENT of discovery is independent
of the set-enumeration order: the key-to-aggregate association is
identical under any two valid orders, and the `new_tickers` and
`existing_updates` lists are permutations of each other; only the
relative order of groups (ties in `new_tickers`) may differ between runs. -/
theorem c3_amended_content_deterministic (ord1 ord2 : List String → List String)
    (hp1 : ∀ l, (ord1 l).Perm l) (hp2 : ∀ l, (ord2 l).Perm l)
    (videos : List Video) (stocks : List Entry) :
    (∀ k, lookupA (extract_recommendations_from_videos ord1 videos) k
        = lookupA (extract_recommendations_from_videos ord2 videos) k) ∧
      ((discover_new_tickers ord1 videos stocks).1.Perm
        (discover_new_tickers ord2 videos stocks).1) ∧
      ((discover_new_tickers ord1 videos stocks).2.Perm
        (discover_new_tickers ord2 videos stocks).2) := by
  have hl : ∀ k, lookupA (extract_recommendations_from_videos ord1 videos) k
      = lookupA (extract_recommendations_from_videos ord2 videos) k := by
    intro k
    rw [lookupA_extract ord1 hp1 videos k, lookupA_extract ord2 hp2 videos k]
  have hperm : (extract_recommendations_from_videos ord1 videos).Perm
      (extract_recommendations_from_videos ord2 videos) :=
    lookupA_ext_perm _ _ (nodup_keysOf_extract ord1 videos)
      (nodup_keysOf_extract ord2 videos) hl
  refine ⟨hl, ?_, hperm.filterMap _⟩
  exact List.Perm.trans (List.perm_insertionSort _ _)
    (List.Perm.trans (hperm.filterMap _) (List.perm_insertionSort _ _).symm)

/-- Witness for the amended C3 at the identity and reversal enumerations
over a concrete video batch. -/
theorem c3_amended_witness :
    (∀ k, lookupA (extract_recommendations_from_videos id [c3Video]) k
        = lookupA (extract_recommendations_from_videos List.reverse [c3Video]) k) ∧
      ((discover_new_tickers id [c3Video] []).1.Perm
        (discover_new_tickers List.reverse [c3Video] []).1) ∧
      ((discover_new_tickers id [c3Video] []).2.Perm
        (discover_new_tickers List.reverse [c3Video] []).2) :=
  c3_amended_content_deterministic id List.reverse (fun l => List.Perm.refl l)
    (fun l => l.reverse_perm) [c3Video] []

/-- C6 counterexample: a single video listing the same ticker in two case
variants contributes 2 to `mentionCount` (under every enumeration order of
its two-element ticker set), while the video count of the claim is 1. -/
theorem c6_counterexample_case_variants_double_count :
    ((extract_recommendations_from_videos id [c6Video]).map
        fun kr => (kr.1, kr.2.mentionCount)) = [("NVDA|Ch", 2)] ∧
      ((extract_recommendations_from_videos List.reverse [c6Video]).map
        fun kr => (kr.1, kr.2.mentionCount)) = [("NVDA|Ch", 2)] ∧
      videosMentioning [c6Video] "NVDA" "Ch" = 1 := by
  refine ⟨by decide, by decide, by decide⟩

/-- Witness for the amended C6 at a concrete clean video batch. -/
theorem c6_amended_witness :
    cleanVideoRec.mentionCount
      = videosMentioning [cleanVideo] cleanVideoRec.ticker cleanVideoRec.channel :=
  c6_amended_mentionCount id (fun l => List.Perm.refl l) [cleanVideo]
    (by decide) "NVDA|Ch" cleanVideoRec (by decide)

/-- C5 counterexample: the aggregate built by
`extract_recommendations_from_videos` keeps EVERY distinct contributing
title - four videos with distinct titles give a videos list of length 4,
refuting the at-most-3 bound for the Recommendation itself. -/
theorem c5_counterexample_videos_list_unbounded :
    ((extract_recommendations_from_videos id c5Videos).map fun kr => kr.2.videos)
        = [["T1", "T2", "T3", "T4"]] ∧
      ¬ ∀ kr ∈ extract_recommendations_from_videos id c5Videos,
          kr.2.videos.length ≤ 3 := by
  refine ⟨by decide, by decide⟩

/-- C5 amended: the Recommendation's videos list is deduplicated (by
exact title, in encounter order) but unbounded; the cap of 3 is applied
by `create_new_stock_entry`, whose `sourceDetails.videos` is the first 3
titles of that list. -/
theorem c5_amended_videos_dedup_cap_in_create (ord : List String → List String)
    (hp : ∀ l, (ord l).Perm l) (videos : List Video) (k : String) (r : Recommendation)
    (hmem : (k, r) ∈ extract_recommendations_from_videos ord videos)
    (hist : String → String → Option ℚ) (today : String) (fetchHistorical : Bool) :
    r.videos.Nodup ∧
      (create_new_stock_entry hist today fetchHistorical r).sourceDetails.videos
        = r.videos.take 3 ∧
      (create_new_stock_entry hist today fetchHistorical r).sourceDetails.videos.length
        ≤ 3 := by
  have hlook : lookupA (extract_recommendations_from_videos ord videos) k = some r :=
    lookupA_eq_of_mem _ _ _ (nodup_keysOf_extract ord videos) hmem
  have hspec : lookupSpec videos k = some r := by
    rw [← lookupA_extract ord hp videos k]
    exact hlook
  refine ⟨lookupSpec_videos_nodup videos k r hspec, rfl, ?_⟩
  show (r.videos.take 3).length ≤ 3
  rw [List.length_take]
  exact min_le_left _ _

/-- Witness for the amended C5 at the four-video fixture. -/
theorem c5_amended_witness :
    c5Rec.videos.Nodup ∧
      (create_new_stock_entry histNone "2026-01-01" true c5Rec).sourceDetails.videos
        = c5Rec.videos.take 3 ∧
      (create_new_stock_entry histNone "2026-01-01" true c5Rec).sourceDetails.videos.length
        ≤ 3 :=
  c5_amended_videos_dedup_cap_in_create id (fun l => List.Perm.refl l) c5Videos
    "NVDA|Ch" c5Rec (by decide) histNone "2026-01-01" true
